import Mathlib

/-!
Verification of the cascade-extraction core of `ic3_labels`
(`ic3_labels/labels/utils/cascade.py`).

Shallow embedding: particles of the I3MCTree are modelled as finite trees
carrying their ordered daughter lists; scalar quantities (positions,
energies, times, lengths) are rationals.  The Python code compares
Euclidean magnitudes computed with floating-point `sqrt`; since `sqrt` is
strictly monotone on the non-negative reals, every comparison of
magnitudes in the source is embedded as the same comparison of *squared*
magnitudes, which keeps all comparisons inside `ℚ` and hence decidable.
Where the source stores a magnitude itself (the cascade extension length),
the embedding uses `Real.sqrt` of the squared magnitude.

External collaborators (the geometry oracle, the neutrino-identification
helper `get_interaction_neutrino`, and the `ShowerParameters` EM-scale
table) live outside the two source files; following the spec they are
passed in as parameters.
-/

namespace IC3

/-- Vector in 3-space over `ℚ` (models `I3Position` / `I3Direction` coordinates). -/
structure Vec3 where
  x : ℚ
  y : ℚ
  z : ℚ
deriving DecidableEq, Repr

namespace Vec3

def add (a b : Vec3) : Vec3 := ⟨a.x + b.x, a.y + b.y, a.z + b.z⟩

def sub (a b : Vec3) : Vec3 := ⟨a.x - b.x, a.y - b.y, a.z - b.z⟩

def smul (c : ℚ) (a : Vec3) : Vec3 := ⟨c * a.x, c * a.y, c * a.z⟩

/-- Squared Euclidean magnitude (the square of `I3Position.magnitude`). -/
def magnitudeSq (a : Vec3) : ℚ := a.x * a.x + a.y * a.y + a.z * a.z

theorem magnitudeSq_nonneg (a : Vec3) : 0 ≤ a.magnitudeSq := by
  have hx : 0 ≤ a.x * a.x := mul_self_nonneg _
  have hy : 0 ≤ a.y * a.y := mul_self_nonneg _
  have hz : 0 ≤ a.z * a.z := mul_self_nonneg _
  unfold magnitudeSq
  linarith

end Vec3

/-- Squared distance between two points: square of `(a - b).magnitude`. -/
def distSq (a b : Vec3) : ℚ := (a.sub b).magnitudeSq

theorem distSq_nonneg (a b : Vec3) : 0 ≤ distSq a b :=
  Vec3.magnitudeSq_nonneg _

/-- Euclidean distance between two points, `(a - b).magnitude` of the
source (real-valued). -/
noncomputable def edist (a b : Vec3) : ℝ := Real.sqrt ((distSq a b : ℚ) : ℝ)

/-- Comparisons of magnitudes and of squared magnitudes agree. -/
theorem edist_le_edist (v a b : Vec3) (h : distSq v a ≤ distSq v b) :
    edist v a ≤ edist v b := by
  unfold edist
  exact Real.sqrt_le_sqrt (by exact_mod_cast h)

theorem edist_lt_edist (v a b : Vec3) (h : distSq v a < distSq v b) :
    edist v a < edist v b := by
  unfold edist
  apply Real.sqrt_lt_sqrt
  · exact_mod_cast distSq_nonneg v a
  · exact_mod_cast h

/-- Particle species (subset of `I3Particle.ParticleType` used here). -/
inductive ParticleType where
  | NuE | NuEBar | NuMu | NuMuBar | NuTau | NuTauBar
  | MuMinus | MuPlus | TauMinus | TauPlus
  | EMinus | EPlus | Gamma | Hadrons | PPlus | PiPlus | PiMinus
deriving DecidableEq, Repr

/-- Embeds `I3Particle.is_neutrino`. -/
def ParticleType.is_neutrino : ParticleType → Bool
  | .NuE | .NuEBar | .NuMu | .NuMuBar | .NuTau | .NuTauBar => true
  | _ => false

/-- Shape tag (`I3Particle.ParticleShape`, subset). -/
inductive ParticleShape where
  | Null | Primary | Cascade | InfiniteTrack | StartingTrack | Dark
deriving DecidableEq, Repr

/-- Location tag (`I3Particle.LocationType`). -/
inductive LocationType where
  | Anywhere | IceTop | InIce | InActiveVolume
deriving DecidableEq, Repr

/-- A particle length: a finite float value, or NaN/±inf (`np.isfinite`
false).  All non-finite values behave identically in the source. -/
inductive LengthVal where
  | fin (l : ℚ)
  | nonfinite
deriving DecidableEq, Repr

/-- The scalar payload of an `I3Particle` (everything but the tree links). -/
structure PData where
  ptype : ParticleType
  shape : ParticleShape
  location_type : LocationType
  pos : Vec3
  dir : Vec3
  time : ℚ
  energy : ℚ
  length : LengthVal
deriving DecidableEq, Repr

/-- A particle node of the `I3MCTree`: its data together with its ordered
list of daughters (`tree.get_daughters`). -/
inductive Particle where
  | mk (dat : PData) (daughters : List Particle)

def Particle.dat : Particle → PData
  | .mk d _ => d

/-- Embeds `tree.get_daughters(p)`. -/
def Particle.daughters : Particle → List Particle
  | .mk _ ds => ds

theorem Particle.sizeOf_daughters_lt (p : Particle) :
    sizeOf p.daughters < sizeOf p := by
  cases p with
  | mk d ds => simp [Particle.daughters]; try omega

theorem List.sizeOf_head_lt {α} [SizeOf α] (d : α) (ds : List α) :
    sizeOf d < sizeOf (d :: ds) := by
  simp; try omega

theorem List.sizeOf_tail_lt {α} [SizeOf α] (d : α) (ds : List α) :
    sizeOf ds < sizeOf (d :: ds) := by
  simp; try omega

/-- The endpoint of a particle (lines 108-112 of `cascade.py`):
`pos + dir * length` when the length is finite and strictly positive,
otherwise the raw position. -/
def particle_end_pos (p : Particle) : Vec3 :=
  match p.dat.length with
  | .fin l => if 0 < l then p.dat.pos.add (Vec3.smul l p.dat.dir) else p.dat.pos
  | .nonfinite => p.dat.pos

mutual

/-- Embeds `get_extension_from_vertex` (lines 80-130 of `cascade.py`).  The loop
state `(max_distance, max_extension)` is threaded through
`extension_loop`; distances are compared squared (see the header note).
Returns `none` exactly when `max_extension` stays `None`. -/
def get_extension_from_vertex (particle : Particle) (vertex : Vec3)
    (consider_particle_length : Bool) : Option Vec3 :=
  match particle with
  | .mk dat ds =>
    (extension_loop ds vertex
      (if consider_particle_length then
        (distSq vertex (particle_end_pos (.mk dat ds)),
         some (particle_end_pos (.mk dat ds)))
      else (0, none))).2
termination_by sizeOf particle

/-- The `for d in daughters` loop of `get_extension_from_vertex`
(lines 120-128): each daughter is searched with
`consider_particle_length=True` (the Python default at line 121).  The
`none` branch is unreachable (the recursive call always yields a
position, proved below); in Python it would raise, never silently skip. -/
def extension_loop (ds : List Particle) (vertex : Vec3)
    (acc : ℚ × Option Vec3) : ℚ × Option Vec3 :=
  match ds with
  | [] => acc
  | d :: rest =>
    match get_extension_from_vertex d vertex true with
    | some extension =>
      if acc.1 ≤ distSq vertex extension then
        extension_loop rest vertex (distSq vertex extension, some extension)
      else
        extension_loop rest vertex acc
    | none => extension_loop rest vertex acc
termination_by sizeOf ds

end

mutual

/-- Specification artifact: the candidate endpoints that
`get_extension_from_vertex` with `consider_particle_length=True`
examines, in depth-first visit order (own endpoint first, then each
daughter subtree in order). -/
def candidates (p : Particle) : List Vec3 :=
  match p with
  | .mk dat ds => particle_end_pos (.mk dat ds) :: candidates_list ds

/-- Candidates contributed by a list of daughter subtrees, in order. -/
def candidates_list : List Particle → List Vec3
  | [] => []
  | d :: rest => candidates d ++ candidates_list rest

end

/-- One update step of the loop state by a single candidate endpoint:
the `>=` comparison of line 125 (squared). -/
def step (v : Vec3) (a : ℚ × Option Vec3) (c : Vec3) : ℚ × Option Vec3 :=
  if a.1 ≤ distSq v c then (distSq v c, some c) else a

/-- Folding the loop state over a flat list of candidate endpoints. -/
def run_candidates (v : Vec3) (acc : ℚ × Option Vec3) (cs : List Vec3) :
    ℚ × Option Vec3 :=
  cs.foldl (step v) acc

/-- Comparing a loop state against the best state of a completed subtree
search (the body of lines 124-128, at the level of states). -/
def stepPair (a b : ℚ × Option Vec3) : ℚ × Option Vec3 :=
  if a.1 ≤ b.1 then b else a

/-- Loop-state invariant: the recorded distance is the squared distance
of the recorded extension (0 when there is none yet). -/
def Good (v : Vec3) (a : ℚ × Option Vec3) : Prop :=
  match a.2 with
  | none => a.1 = 0
  | some e => a.1 = distSq v e

theorem good_step {v : Vec3} {a : ℚ × Option Vec3} (h : Good v a)
    (c : Vec3) : Good v (step v a c) := by
  unfold step
  split
  · simp [Good]
  · exact h

theorem good_run_candidates {v : Vec3} {a : ℚ × Option Vec3}
    (h : Good v a) (cs : List Vec3) : Good v (run_candidates v a cs) := by
  induction cs generalizing a with
  | nil => simpa [run_candidates] using h
  | cons c cs ih =>
    have hc : run_candidates v a (c :: cs) = run_candidates v (step v a c) cs := by
      simp [run_candidates]
    rw [hc]
    exact ih (good_step h c)

theorem run_candidates_nil (v : Vec3) (a : ℚ × Option Vec3) :
    run_candidates v a [] = a := rfl

theorem run_candidates_cons (v : Vec3) (a : ℚ × Option Vec3) (c : Vec3)
    (cs : List Vec3) :
    run_candidates v a (c :: cs) = run_candidates v (step v a c) cs := by
  simp [run_candidates]

theorem run_candidates_append (v : Vec3) (a : ℚ × Option Vec3)
    (cs ds : List Vec3) :
    run_candidates v a (cs ++ ds) = run_candidates v (run_candidates v a cs) ds := by
  simp [run_candidates]

theorem run_candidates_isSome (v : Vec3) (a : ℚ × Option Vec3)
    (cs : List Vec3) (h : a.2.isSome) : (run_candidates v a cs).2.isSome := by
  induction cs generalizing a with
  | nil => simpa [run_candidates] using h
  | cons c cs ih =>
    rw [run_candidates_cons]
    apply ih
    unfold IC3.step
    split
    · simp
    · exact h

/-- Exchange law: comparing an accumulator against the result of a
completed fold is the same as folding from the compared accumulator. -/
theorem stepPair_run_candidates (v : Vec3) (cs : List Vec3) :
    ∀ (a b : ℚ × Option Vec3),
      stepPair a (run_candidates v b cs) = run_candidates v (stepPair a b) cs := by
  induction cs with
  | nil => intro a b; simp [run_candidates]
  | cons c cs ih =>
    intro a b
    rw [run_candidates_cons, run_candidates_cons, ih]
    congr 1
    unfold stepPair IC3.step
    rcases le_or_lt a.1 b.1 with hab | hab <;>
      rcases le_or_lt b.1 (distSq v c) with hbc | hbc <;>
      rcases le_or_lt a.1 (distSq v c) with hac | hac <;>
      simp [hab, hbc, hac, not_le.mpr, le_of_lt] <;>
      first
        | rfl
        | (exfalso; linarith)


theorem good_stepPair {v : Vec3} {a b : ℚ × Option Vec3} (ha : Good v a)
    (hb : Good v b) : Good v (stepPair a b) := by
  unfold stepPair
  split
  · exact hb
  · exact ha

theorem good_zero_none (v : Vec3) : Good v (0, none) := rfl

theorem step_eq_stepPair (v : Vec3) (a : ℚ × Option Vec3) (c : Vec3) :
    step v a c = stepPair a (distSq v c, some c) := rfl

/-- The daughter loop is the fold of the single-candidate update over the
flat depth-first candidate list of the daughter subtrees. -/
theorem extension_loop_run_candidates :
    ∀ (n : ℕ) (ds : List Particle), sizeOf ds ≤ n →
      ∀ (v : Vec3) (acc : ℚ × Option Vec3), Good v acc →
        extension_loop ds v acc = run_candidates v acc (candidates_list ds) := by
  intro n
  induction n using Nat.strong_induction_on with
  | _ n ih =>
    intro ds hds v acc hacc
    match ds with
    | [] => simp [extension_loop, candidates_list, run_candidates]
    | (Particle.mk dat dds) :: rest =>
      have hsize : sizeOf ((Particle.mk dat dds) :: rest) =
          1 + (1 + sizeOf dat + sizeOf dds) + sizeOf rest := by
        simp
      have hdds : sizeOf dds < n := by omega
      have hrest : sizeOf rest < n := by omega
      have hb0 : Good v (distSq v (particle_end_pos (.mk dat dds)),
          some (particle_end_pos (.mk dat dds))) := rfl
      have hget : get_extension_from_vertex (.mk dat dds) v true =
          (run_candidates v (distSq v (particle_end_pos (.mk dat dds)),
            some (particle_end_pos (.mk dat dds))) (candidates_list dds)).2 := by
        rw [get_extension_from_vertex]
        rw [if_pos rfl]
        rw [ih (sizeOf dds) hdds dds le_rfl v _ hb0]
      have hqg : Good v (run_candidates v
          (distSq v (particle_end_pos (.mk dat dds)),
           some (particle_end_pos (.mk dat dds))) (candidates_list dds)) :=
        good_run_candidates hb0 _
      have hqs : (run_candidates v
          (distSq v (particle_end_pos (.mk dat dds)),
           some (particle_end_pos (.mk dat dds))) (candidates_list dds)).2.isSome :=
        run_candidates_isSome v _ _ (by simp)
      obtain ⟨e, he⟩ := Option.isSome_iff_exists.mp hqs
      have hq1 : (run_candidates v
          (distSq v (particle_end_pos (.mk dat dds)),
           some (particle_end_pos (.mk dat dds))) (candidates_list dds)).1 =
          distSq v e := by
        unfold Good at hqg
        rw [he] at hqg
        exact hqg
      have hqpair : (distSq v e, some e) = run_candidates v
          (distSq v (particle_end_pos (.mk dat dds)),
           some (particle_end_pos (.mk dat dds))) (candidates_list dds) := by
        rw [Prod.ext_iff]
        exact ⟨hq1.symm, he.symm⟩
      rw [extension_loop]
      rw [hget, he]
      simp only []
      have hbody : (if acc.1 ≤ distSq v e then
            extension_loop rest v (distSq v e, some e)
          else extension_loop rest v acc) =
          extension_loop rest v (stepPair acc (distSq v e, some e)) := by
        unfold stepPair
        split <;> rfl
      rw [hbody, hqpair]
      rw [ih (sizeOf rest) hrest rest le_rfl v _ (good_stepPair hacc hqg)]
      rw [candidates_list, candidates]
      rw [run_candidates_append, run_candidates_cons]
      rw [step_eq_stepPair]
      rw [stepPair_run_candidates]

/-- Characterization: `get_extension_from_vertex` equals the fold of the update step over
the depth-first candidate list (own endpoint included only in
`consider_particle_length=True` mode). -/
theorem get_extension_eq_run_candidates (p : Particle) (v : Vec3) (b : Bool) :
    get_extension_from_vertex p v b =
      (run_candidates v (0, none)
        (if b then candidates p else candidates_list p.daughters)).2 := by
  match p with
  | .mk dat ds =>
    rw [get_extension_from_vertex]
    cases b with
    | false =>
      rw [if_neg (by simp), if_neg (by simp)]
      rw [extension_loop_run_candidates (sizeOf ds) ds le_rfl v (0, none)
        (good_zero_none v)]
      rfl
    | true =>
      rw [if_pos rfl, if_pos rfl]
      rw [extension_loop_run_candidates (sizeOf ds) ds le_rfl v _
        (show Good v (distSq v (particle_end_pos (.mk dat ds)),
          some (particle_end_pos (.mk dat ds))) from rfl)]
      rw [candidates, run_candidates_cons]
      have hstep : step v (0, none) (particle_end_pos (.mk dat ds)) =
          (distSq v (particle_end_pos (.mk dat ds)),
           some (particle_end_pos (.mk dat ds))) := by
        unfold step
        rw [if_pos]
        exact distSq_nonneg v _
      rw [hstep]

/-- The fold from the empty state selects the candidate of maximum
squared distance, and on ties the one visited last: the list splits as
`l1 ++ e :: l2` where the winner `e` dominates everything (`≤`) and
strictly dominates everything visited after it (`<`). -/
theorem run_candidates_argmax (v : Vec3) (cs : List Vec3) (hne : cs ≠ []) :
    ∃ l1 l2 e, cs = l1 ++ e :: l2 ∧
      run_candidates v (0, none) cs = (distSq v e, some e) ∧
      (∀ c ∈ cs, distSq v c ≤ distSq v e) ∧
      (∀ c ∈ l2, distSq v c < distSq v e) := by
  induction cs using List.reverseRecOn with
  | nil => exact absurd rfl hne
  | append_singleton cs c ih =>
    rcases eq_or_ne cs [] with hcs | hcs
    · subst hcs
      refine ⟨[], [], c, by simp, ?_, ?_, by simp⟩
      · rw [List.nil_append, run_candidates_cons, run_candidates_nil]
        unfold step
        rw [if_pos (distSq_nonneg v c)]
      · intro x hx
        have : x = c := by simpa using hx
        subst this
        exact le_rfl
    · obtain ⟨l1, l2, e, hsplit, hrun, hmax, hlast⟩ := ih hcs
      rw [run_candidates_append, hrun]
      rcases le_or_lt (distSq v e) (distSq v c) with hle | hlt
      · refine ⟨cs, [], c, by simp, ?_, ?_, by simp⟩
        · rw [run_candidates_cons, run_candidates_nil]
          unfold step
          rw [if_pos hle]
        · intro x hx
          rcases List.mem_append.mp hx with hx | hx
          · exact le_trans (hmax x hx) hle
          · have : x = c := by simpa using hx
            subst this
            exact le_rfl
      · refine ⟨l1, l2 ++ [c], e, ?_, ?_, ?_, ?_⟩
        · rw [hsplit]
          simp
        · rw [run_candidates_cons, run_candidates_nil]
          unfold step
          rw [if_neg (not_le.mpr hlt)]
        · intro x hx
          rcases List.mem_append.mp hx with hx | hx
          · exact hmax x hx
          · have : x = c := by simpa using hx
            subst this
            exact le_of_lt hlt
        · intro x hx
          rcases List.mem_append.mp hx with hx | hx
          · exact hlast x hx
          · have : x = c := by simpa using hx
            subst this
            exact hlt

/-- In `consider_particle_length=True` mode the own endpoint is always a
candidate, so the candidate list is never empty. -/
theorem candidates_ne_nil (p : Particle) : candidates p ≠ [] := by
  match p with
  | .mk dat ds =>
    rw [candidates]
    exact List.cons_ne_nil _ _

theorem candidates_list_ne_nil {ds : List Particle} (h : ds ≠ []) :
    candidates_list ds ≠ [] := by
  match ds with
  | [] => exact absurd rfl h
  | d :: rest =>
    rw [candidates_list]
    intro hemp
    rcases List.append_eq_nil.mp hemp with ⟨h1, _⟩
    exact candidates_ne_nil d h1

/-- Concrete example tree: a neutrino with two point-like daughters at
equal (tied) distance 3 from the origin, the second visited later. -/
def exD1 : Particle :=
  .mk ⟨.EMinus, .Null, .InIce, ⟨3, 0, 0⟩, ⟨1, 0, 0⟩, 0, 1, .nonfinite⟩ []

def exD2 : Particle :=
  .mk ⟨.Hadrons, .Null, .InIce, ⟨0, 3, 0⟩, ⟨0, 1, 0⟩, 0, 2, .nonfinite⟩ []

def exNu : Particle :=
  .mk ⟨.NuE, .Null, .InIce, ⟨0, 0, 0⟩, ⟨1, 0, 0⟩, 0, 6, .nonfinite⟩ [exD1, exD2]

/-- C1: for every particle tree, particle and reference vertex,
`get_extension_from_vertex` returns the endpoint — among the particle's
own endpoint (a candidate only when `consider_particle_length` is true)
and the endpoints of all its descendants, where an endpoint is
`pos + dir*length` for finite positive length and the raw position
otherwise — of maximum Euclidean distance to the vertex, with exact ties
resolved in favor of the later-visited candidate in depth-first daughter
order (the `>=` comparison): the candidate list splits as `l1 ++ e :: l2`
with the returned `e` weakly dominating all candidates and strictly
dominating all later-visited ones. -/
theorem get_extension_from_vertex_spec (p : Particle) (v : Vec3) (b : Bool)
    (hne : (if b then candidates p else candidates_list p.daughters) ≠ []) :
    ∃ l1 l2 e,
      (if b then candidates p else candidates_list p.daughters) =
        l1 ++ e :: l2 ∧
      get_extension_from_vertex p v b = some e ∧
      (∀ c ∈ (if b then candidates p else candidates_list p.daughters),
        edist v c ≤ edist v e) ∧
      (∀ c ∈ l2, edist v c < edist v e) := by
  obtain ⟨l1, l2, e, hsplit, hrun, hmax, hlast⟩ :=
    run_candidates_argmax v _ hne
  refine ⟨l1, l2, e, hsplit, ?_, ?_, ?_⟩
  · rw [get_extension_eq_run_candidates, hrun]
  · intro c hc
    exact edist_le_edist v c e (hmax c hc)
  · intro c hc
    exact edist_lt_edist v c e (hlast c hc)

/-- Witness for C1 on the concrete tied tree `exNu` (exclude-self mode,
vertex at the origin). -/
theorem get_extension_from_vertex_spec_witness :
    ∃ l1 l2 e,
      (if false then candidates exNu else candidates_list exNu.daughters) =
        l1 ++ e :: l2 ∧
      get_extension_from_vertex exNu ⟨0, 0, 0⟩ false = some e ∧
      (∀ c ∈ (if false then candidates exNu
              else candidates_list exNu.daughters),
        edist ⟨0, 0, 0⟩ c ≤ edist ⟨0, 0, 0⟩ e) ∧
      (∀ c ∈ l2, edist ⟨0, 0, 0⟩ c < edist ⟨0, 0, 0⟩ e) :=
  get_extension_from_vertex_spec exNu ⟨0, 0, 0⟩ false
    (by norm_num [exNu, exD1, exD2, Particle.daughters, candidates_list,
      candidates, particle_end_pos, Particle.dat]; exact List.cons_ne_nil _ _)

/-- C6: with `consider_particle_length=False` and an empty daughter list
the search is populated by nothing and `get_extension_from_vertex`
returns `None`. -/
theorem get_extension_no_daughters_none (p : Particle) (v : Vec3)
    (h : p.daughters = []) :
    get_extension_from_vertex p v false = none := by
  rw [get_extension_eq_run_candidates]
  simp only [Bool.false_eq_true, if_false, h, candidates_list]
  rfl

/-- Witness for C6: a childless particle. -/
theorem get_extension_no_daughters_none_witness :
    get_extension_from_vertex exD1 ⟨0, 0, 0⟩ false = none :=
  get_extension_no_daughters_none exD1 ⟨0, 0, 0⟩
    (by norm_num [exD1, Particle.daughters])

/-- C9: with at least one daughter, the exclude-self mode never returns
`None`: distances are non-negative and the comparison is `>=` against an
initial maximum of 0, so the first daughter's subtree result replaces
the empty initial candidate. -/
theorem get_extension_some_of_daughters (p : Particle) (v : Vec3)
    (h : p.daughters ≠ []) :
    ∃ e, get_extension_from_vertex p v false = some e := by
  rw [get_extension_eq_run_candidates]
  obtain ⟨l1, l2, e, _, hrun, _, _⟩ :=
    run_candidates_argmax v (candidates_list p.daughters)
      (candidates_list_ne_nil h)
  refine ⟨e, ?_⟩
  simp only [Bool.false_eq_true, if_false, hrun]

/-- Witness for C9: the two-daughter tree `exNu`. -/
theorem get_extension_some_of_daughters_witness :
    ∃ e, get_extension_from_vertex exNu ⟨0, 0, 0⟩ false = some e :=
  get_extension_some_of_daughters exNu ⟨0, 0, 0⟩
    (by norm_num [exNu, Particle.daughters]; exact List.cons_ne_nil _ _)

/-- Embeds `get_cascade_em_equivalent` (lines 133-148 of `cascade.py`): the
particle's energy scaled to EM equivalent.  The external
`ShowerParameters` table enters as the parameter `emScale`
(`(type, energy) → scale_factor`). -/
def get_cascade_em_equivalent (emScale : ParticleType → ℚ → ℚ)
    (cascade : PData) : ℚ :=
  cascade.energy * emScale cascade.ptype cascade.energy

/-- Embeds `get_cascade_energy_deposited` (lines 151-182): all-or-nothing
containment.  The convex hull is modelled by its membership oracle
(`geometry.point_is_inside` applied to the hull). -/
def get_cascade_energy_deposited (emScale : ParticleType → ℚ → ℚ)
    (convex_hull : Vec3 → Bool) (cascade : PData) : ℚ :=
  if convex_hull cascade.pos then get_cascade_em_equivalent emScale cascade
  else 0

/-- The containment test of lines 244-252 of `get_cascade_of_primary_nu`:
the explicit convex hull when one is supplied, otherwise the external
detector-bounds test (`geometry.is_in_detector_bounds`) with the
`extend_boundary` margin. -/
def volume_contains (is_in_detector_bounds : Vec3 → ℚ → Bool)
    (convex_hull : Option (Vec3 → Bool)) (extend_boundary : ℚ)
    (point : Vec3) : Bool :=
  match convex_hull with
  | none => is_in_detector_bounds point extend_boundary
  | some hull => hull point

/-- The energy-aggregation loop of lines 269-301: skip neutrino
daughters, skip non-`InIce` daughters, add muon/tau raw energy, add the
EM equivalent for everything else. -/
def deposited_energy_loop (emScale : ParticleType → ℚ → ℚ)
    (daughters : List Particle) : ℚ :=
  daughters.foldl (fun deposited_energy d =>
    if d.dat.ptype.is_neutrino then deposited_energy
    else if d.dat.location_type ≠ .InIce then deposited_energy
    else if d.dat.ptype ∈ [ParticleType.MuMinus, ParticleType.MuPlus,
        ParticleType.TauMinus, ParticleType.TauPlus] then
      deposited_energy + d.dat.energy
    else deposited_energy + get_cascade_em_equivalent emScale d.dat) 0

/-- Embeds `get_interaction_extension_length` (lines 23-49), squared: the float
the source returns is the square root of this value (the comparisons
that produced it were embedded squared; `sqrt` is applied at the use
sites).  The first `.error` is the `assert len(daughters) > 0`; the
second is the `TypeError` Python would raise on a `None` extension
(proved unreachable below). -/
def get_interaction_extension_length_sq (primary : Particle) :
    Except String ℚ :=
  match primary.daughters with
  | [] => .error "Expected at least 1 daughter"
  | d :: _ =>
    match get_extension_from_vertex primary d.dat.pos false with
    | some extension => .ok (distSq d.dat.pos extension)
    | none => .error "TypeError: unsupported operand"

/-- Embeds `get_interaction_extension_pos` (lines 52-77): same computation but
returning the extension position, guarded by
`assert len(daughters) >= 2`. -/
def get_interaction_extension_pos (primary : Particle) :
    Except String (Option Vec3) :=
  match primary.daughters with
  | d :: _ :: _ => .ok (get_extension_from_vertex primary d.dat.pos false)
  | _ => .error "Expected at least 2 daughters"

/-- Did an `Except` computation raise (an `assert` firing / exception)? -/
def errored {α : Type} : Except String α → Bool
  | .error _ => true
  | .ok _ => false

/-- The cascade `I3Particle` synthesized at lines 259-264 and 302,
restricted to the fields the source assigns.  `length_sq` stores the
square of the float length of line 264; the real-valued length is the
`CascadeOut.length` accessor. -/
structure CascadeOut where
  ptype : ParticleType
  shape : ParticleShape
  dir : Vec3
  pos : Vec3
  time : ℚ
  length_sq : ℚ
  energy : ℚ
deriving DecidableEq, Repr

noncomputable def CascadeOut.length (c : CascadeOut) : ℝ :=
  Real.sqrt ((c.length_sq : ℚ) : ℝ)

/-- Embeds `get_cascade_of_primary_nu` (lines 185-303).  The result of the
external neutrino-identification helper (`get_interaction_neutrino`,
lines 226-229, repository code outside the two source files) is passed
in as `interaction_neutrino`; the geometry oracle's detector-bounds
test as `is_in_detector_bounds`; the `ShowerParameters` table as
`emScale`.  The Python `assert`s are the `.error` outcomes; `.ok none`
is the normal "no cascade" return. -/
def get_cascade_of_primary_nu (emScale : ParticleType → ℚ → ℚ)
    (is_in_detector_bounds : Vec3 → ℚ → Bool)
    (interaction_neutrino : Option Particle) (primary : Particle)
    (convex_hull : Option (Vec3 → Bool)) (extend_boundary : ℚ) :
    Except String (Option CascadeOut) :=
  match interaction_neutrino with
  | none => .ok none
  | some neutrino =>
    if neutrino.dat.ptype.is_neutrino = false then .ok none
    else
      match neutrino.daughters with
      | [] => .error "Expected at least one daughter!"
      | d0 :: _ =>
        if volume_contains is_in_detector_bounds convex_hull
            extend_boundary d0.dat.pos = false then
          .error "Expected interaction to be inside defined volume!"
        else
          match get_interaction_extension_length_sq neutrino with
          | .error msg => .error msg
          | .ok len_sq =>
            .ok (some
              { ptype := neutrino.dat.ptype
                shape := .Cascade
                dir := primary.dat.dir
                pos := d0.dat.pos
                time := d0.dat.time
                length_sq := len_sq
                energy := deposited_energy_loop emScale neutrino.daughters })

/-- Shared helper: with a non-empty daughter list the exclude-self search
yields a position (the `>=` update always fires against the initial 0),
hence `get_interaction_extension_length_sq` succeeds. -/
theorem extension_length_sq_ok {p d0 : Particle} {rest : List Particle}
    (h : p.daughters = d0 :: rest) :
    ∃ e, get_extension_from_vertex p d0.dat.pos false = some e ∧
      get_interaction_extension_length_sq p = .ok (distSq d0.dat.pos e) := by
  have hne : p.daughters ≠ [] := by
    rw [h]
    exact List.cons_ne_nil _ _
  obtain ⟨l1, l2, e, _, hrun, _, _⟩ :=
    run_candidates_argmax d0.dat.pos (candidates_list p.daughters)
      (candidates_list_ne_nil hne)
  have hsome : get_extension_from_vertex p d0.dat.pos false = some e := by
    rw [get_extension_eq_run_candidates]
    simp only [Bool.false_eq_true, if_false, hrun]
  refine ⟨e, hsome, ?_⟩
  unfold get_interaction_extension_length_sq
  rw [h]
  simp only [hsome]

/-- Unfolding equation of `get_cascade_of_primary_nu` for a located
particle. -/
theorem get_cascade_some_eq (emScale : ParticleType → ℚ → ℚ)
    (bounds : Vec3 → ℚ → Bool) (nu primary : Particle)
    (hull : Option (Vec3 → Bool)) (eb : ℚ) :
    get_cascade_of_primary_nu emScale bounds (some nu) primary hull eb =
      (if nu.dat.ptype.is_neutrino = false then .ok none
       else
        match nu.daughters with
        | [] => .error "Expected at least one daughter!"
        | d0 :: _ =>
          if volume_contains bounds hull eb d0.dat.pos = false then
            .error "Expected interaction to be inside defined volume!"
          else
            match get_interaction_extension_length_sq nu with
            | .error msg => .error msg
            | .ok len_sq =>
              .ok (some
                { ptype := nu.dat.ptype
                  shape := .Cascade
                  dir := primary.dat.dir
                  pos := d0.dat.pos
                  time := d0.dat.time
                  length_sq := len_sq
                  energy := deposited_energy_loop emScale nu.daughters })) :=
  rfl

/-- C4: `get_cascade_of_primary_nu` returns `None` — a normal, non-error
outcome — whenever the external helper finds no interaction neutrino, or
the particle it returns is not a neutrino. -/
theorem cascade_none_of_no_neutrino (emScale : ParticleType → ℚ → ℚ)
    (bounds : Vec3 → ℚ → Bool) (interaction_neutrino : Option Particle)
    (primary : Particle) (hull : Option (Vec3 → Bool)) (eb : ℚ)
    (h : interaction_neutrino = none ∨
      ∃ p, interaction_neutrino = some p ∧ p.dat.ptype.is_neutrino = false) :
    get_cascade_of_primary_nu emScale bounds interaction_neutrino primary
      hull eb = .ok none := by
  rcases h with h | ⟨p, hp, hnp⟩
  · rw [h]
    rfl
  · rw [hp, get_cascade_some_eq, hnp]
    simp

/-- Witness for C4, both disjuncts exercised at the non-neutrino case
(an electron returned by the helper). -/
theorem cascade_none_of_no_neutrino_witness :
    get_cascade_of_primary_nu (fun _ _ => 1) (fun _ _ => true) (some exD1)
      exNu (some fun _ => true) 200 = .ok none :=
  cascade_none_of_no_neutrino (fun _ _ => 1) (fun _ _ => true) (some exD1)
    exNu (some fun _ => true) 200
    (Or.inr ⟨exD1, rfl, by norm_num [exD1, Particle.dat, ParticleType.is_neutrino]⟩)

/-- C5: once an interaction neutrino is located, the builder raises a
fatal assertion (rather than returning `None`) exactly when the located
neutrino has no daughters, or the first daughter's position fails the
volume test (explicit hull when supplied, otherwise detector bounds with
margin). -/
theorem cascade_assert_iff (emScale : ParticleType → ℚ → ℚ)
    (bounds : Vec3 → ℚ → Bool) (nu primary : Particle)
    (hull : Option (Vec3 → Bool)) (eb : ℚ)
    (hnu : nu.dat.ptype.is_neutrino = true) :
    errored (get_cascade_of_primary_nu emScale bounds (some nu) primary
        hull eb) = true ↔
      nu.daughters = [] ∨
      ∃ d0 rest, nu.daughters = d0 :: rest ∧
        volume_contains bounds hull eb d0.dat.pos = false := by
  rw [get_cascade_some_eq, hnu]
  simp only [Bool.true_eq_false, if_false]
  match hds : nu.daughters with
  | [] =>
    simp [errored]
  | d0 :: rest =>
    simp only []
    cases hvc : volume_contains bounds hull eb d0.dat.pos with
    | false =>
      simp only [eq_self_iff_true, if_true, errored, true_iff]
      exact Or.inr ⟨d0, rest, rfl, hvc⟩
    | true =>
      simp only [Bool.true_eq_false, if_false]
      obtain ⟨e, _, hok⟩ := extension_length_sq_ok hds
      rw [hok]
      simp only [errored, Bool.false_eq_true, false_iff]
      intro hc
      rcases hc with hc | ⟨d0', rest', heq, hvc'⟩
      · exact List.cons_ne_nil _ _ hc
      · rw [List.cons.injEq] at heq
        rw [heq.1] at hvc
        rw [hvc'] at hvc
        exact Bool.false_ne_true hvc

/-- Witness for C5: a located muon-neutrino with no daughters makes the
zero-daughter assertion fire. -/
theorem cascade_assert_iff_witness :
    errored (get_cascade_of_primary_nu (fun _ _ => 1) (fun _ _ => true)
        (some (Particle.mk ⟨.NuMu, .Null, .InIce, ⟨0, 0, 0⟩, ⟨1, 0, 0⟩,
          0, 6, .nonfinite⟩ [])) exNu (some fun _ => true) 200) = true ↔
      (Particle.mk ⟨ParticleType.NuMu, .Null, .InIce, ⟨0, 0, 0⟩,
        ⟨1, 0, 0⟩, 0, 6, .nonfinite⟩ []).daughters = [] ∨
      ∃ d0 rest, (Particle.mk ⟨ParticleType.NuMu, .Null, .InIce, ⟨0, 0, 0⟩,
          ⟨1, 0, 0⟩, 0, 6, .nonfinite⟩ []).daughters = d0 :: rest ∧
        volume_contains (fun _ _ => true) (some fun _ => true) 200
          d0.dat.pos = false :=
  cascade_assert_iff (fun _ _ => 1) (fun _ _ => true) _ exNu
    (some fun _ => true) 200
    (by norm_num [Particle.dat, ParticleType.is_neutrino])

/-- The per-daughter visible-energy contribution as the claim states it:
nothing for a neutrino daughter, nothing for a non-`InIce` daughter, the
raw energy for muons/taus, the EM equivalent otherwise. -/
def daughter_contribution (emScale : ParticleType → ℚ → ℚ)
    (d : Particle) : ℚ :=
  if d.dat.ptype.is_neutrino then 0
  else if d.dat.location_type ≠ .InIce then 0
  else if d.dat.ptype ∈ [ParticleType.MuMinus, ParticleType.MuPlus,
      ParticleType.TauMinus, ParticleType.TauPlus] then d.dat.energy
  else get_cascade_em_equivalent emScale d.dat

/-- The aggregation loop computes the sum of the per-daughter
contributions. -/
theorem deposited_energy_loop_eq_sum (emScale : ParticleType → ℚ → ℚ)
    (ds : List Particle) :
    deposited_energy_loop emScale ds =
      (ds.map (daughter_contribution emScale)).sum := by
  have key : ∀ (l : List Particle) (a : ℚ),
      l.foldl (fun deposited_energy d =>
        if d.dat.ptype.is_neutrino then deposited_energy
        else if d.dat.location_type ≠ .InIce then deposited_energy
        else if d.dat.ptype ∈ [ParticleType.MuMinus, ParticleType.MuPlus,
            ParticleType.TauMinus, ParticleType.TauPlus] then
          deposited_energy + d.dat.energy
        else deposited_energy + get_cascade_em_equivalent emScale d.dat) a =
      a + (l.map (daughter_contribution emScale)).sum := by
    intro l
    induction l with
    | nil =>
      intro a
      simp
    | cons d rest ih =>
      intro a
      rw [List.foldl_cons, List.map_cons, List.sum_cons]
      by_cases hn : d.dat.ptype.is_neutrino = true
      · rw [ih]
        simp only [daughter_contribution, hn, if_true, if_pos]
        ring
      · have hn' : d.dat.ptype.is_neutrino = false := by
          revert hn
          cases d.dat.ptype.is_neutrino <;> simp
        by_cases hl : d.dat.location_type ≠ LocationType.InIce
        · rw [ih]
          simp only [daughter_contribution, hn', Bool.false_eq_true, if_false,
            if_pos hl]
          ring
        · by_cases hm : d.dat.ptype ∈ [ParticleType.MuMinus,
              ParticleType.MuPlus, ParticleType.TauMinus, ParticleType.TauPlus]
          · rw [if_neg (by rw [hn']; exact Bool.false_ne_true), if_neg hl,
              if_pos hm, ih]
            simp only [daughter_contribution, hn', Bool.false_eq_true,
              if_false, if_neg hl, if_pos hm]
            ring
          · rw [if_neg (by rw [hn']; exact Bool.false_ne_true), if_neg hl,
              if_neg hm, ih]
            simp only [daughter_contribution, hn', Bool.false_eq_true,
              if_false, if_neg hl, if_neg hm]
            ring
  unfold deposited_energy_loop
  rw [key]
  ring

/-- C2: when `get_cascade_of_primary_nu` synthesizes a cascade, its
energy is the sum over the located neutrino's direct daughters of: 0 for
a neutrino daughter, 0 for a daughter not located `InIce`, the raw
energy for a muon/antimuon/tau/antitau daughter, and the EM-equivalent
energy (raw energy times the shower-model scale) for every other
daughter. -/
theorem cascade_energy_eq_sum (emScale : ParticleType → ℚ → ℚ)
    (bounds : Vec3 → ℚ → Bool) (nu primary : Particle)
    (hull : Option (Vec3 → Bool)) (eb : ℚ) (c : CascadeOut)
    (h : get_cascade_of_primary_nu emScale bounds (some nu) primary hull eb =
      .ok (some c)) :
    c.energy = (nu.daughters.map (daughter_contribution emScale)).sum := by
  rw [get_cascade_some_eq] at h
  by_cases hn : nu.dat.ptype.is_neutrino = false
  · rw [if_pos hn] at h
    simp at h
  · rw [if_neg hn] at h
    match hds : nu.daughters with
    | [] =>
      rw [hds] at h
      simp at h
    | d0 :: rest =>
      rw [hds] at h
      simp only [] at h
      cases hvc : volume_contains bounds hull eb d0.dat.pos with
      | false =>
        rw [hvc] at h
        simp at h
      | true =>
        rw [hvc] at h
        simp only [Bool.true_eq_false, if_false] at h
        obtain ⟨e, _, hok⟩ := extension_length_sq_ok hds
        rw [hok] at h
        simp only [Except.ok.injEq, Option.some.injEq] at h
        rw [← h]
        rw [← hds, deposited_energy_loop_eq_sum]

/-- Concrete C2/C3 scenario: a located neutrino with daughters
[muon(E=10), neutrino(E=5), electron(E=3)], all `InIce`, and a primary
whose direction differs from the located neutrino's. -/
def exMu : Particle :=
  .mk ⟨.MuMinus, .Null, .InIce, ⟨1, 0, 0⟩, ⟨0, 0, 1⟩, 0, 10, .nonfinite⟩ []

def exNuD : Particle :=
  .mk ⟨.NuMu, .Null, .InIce, ⟨2, 0, 0⟩, ⟨0, 0, 1⟩, 0, 5, .nonfinite⟩ []

def exEl : Particle :=
  .mk ⟨.EMinus, .Null, .InIce, ⟨1, 2, 0⟩, ⟨0, 0, 1⟩, 0, 3, .nonfinite⟩ []

def exNu2 : Particle :=
  .mk ⟨.NuE, .Null, .InIce, ⟨0, 0, 0⟩, ⟨1, 0, 0⟩, 0, 20, .nonfinite⟩
    [exMu, exNuD, exEl]

def exPrimary : Particle :=
  .mk ⟨.NuE, .Primary, .Anywhere, ⟨-5, 0, 0⟩, ⟨0, 1, 0⟩, 0, 20, .nonfinite⟩
    [exNu2]

/-- Concrete EM-scale table: electrons scale by 1/2, all else by 1. -/
def exScale : ParticleType → ℚ → ℚ :=
  fun t _ => if t = .EMinus then 1 / 2 else 1

/-- The cascade the builder synthesizes from `exNu2` under `exPrimary`:
energy 10 + 3·(1/2) = 23/2, squared length 4 (electron at distSq 4 from
the first daughter's vertex). -/
def exCascade : CascadeOut :=
  ⟨.NuE, .Cascade, ⟨0, 1, 0⟩, ⟨1, 0, 0⟩, 0, 4, 23 / 2⟩

theorem exBuild :
    get_cascade_of_primary_nu exScale (fun _ _ => true) (some exNu2)
      exPrimary (some fun _ => true) 200 = .ok (some exCascade) := by
  norm_num [get_cascade_of_primary_nu, exNu2, exPrimary, exMu, exNuD, exEl,
    exScale, exCascade, Particle.dat, Particle.daughters,
    ParticleType.is_neutrino, volume_contains,
    get_interaction_extension_length_sq, get_extension_from_vertex,
    extension_loop, particle_end_pos, distSq, Vec3.sub, Vec3.add, Vec3.smul,
    Vec3.magnitudeSq, deposited_energy_loop, get_cascade_em_equivalent]
  decide

/-- Witness for C2 on the concrete scenario: the synthesized energy is
the contribution sum, equal to 10 + em_equivalent(electron, 3) and in
particular excluding the skipped neutrino daughter's 5. -/
theorem cascade_energy_eq_sum_witness :
    (exCascade.energy =
      (exNu2.daughters.map (daughter_contribution exScale)).sum) ∧
    exCascade.energy = 10 + get_cascade_em_equivalent exScale exEl.dat :=
  ⟨cascade_energy_eq_sum exScale (fun _ _ => true) exNu2 exPrimary
      (some fun _ => true) 200 exCascade exBuild,
    by norm_num [exCascade, exEl, exScale, Particle.dat,
      get_cascade_em_equivalent]⟩

/-- C3: a non-null result of `get_cascade_of_primary_nu` carries the
located neutrino's type, shape `Cascade`, the primary's direction (not
the neutrino's own), the first daughter's position and time, and as
length the Euclidean distance from the first-daughter vertex to the
maximum-extension endpoint found with `consider_particle_length=False`. -/
theorem cascade_fields_spec (emScale : ParticleType → ℚ → ℚ)
    (bounds : Vec3 → ℚ → Bool) (nu primary : Particle)
    (hull : Option (Vec3 → Bool)) (eb : ℚ) (c : CascadeOut)
    (h : get_cascade_of_primary_nu emScale bounds (some nu) primary hull eb =
      .ok (some c)) :
    c.ptype = nu.dat.ptype ∧ c.shape = .Cascade ∧ c.dir = primary.dat.dir ∧
    ∃ d0 rest, nu.daughters = d0 :: rest ∧ c.pos = d0.dat.pos ∧
      c.time = d0.dat.time ∧
      ∃ e, get_extension_from_vertex nu d0.dat.pos false = some e ∧
        c.length = edist d0.dat.pos e := by
  rw [get_cascade_some_eq] at h
  by_cases hn : nu.dat.ptype.is_neutrino = false
  · rw [if_pos hn] at h
    simp at h
  · rw [if_neg hn] at h
    match hds : nu.daughters with
    | [] =>
      rw [hds] at h
      simp at h
    | d0 :: rest =>
      rw [hds] at h
      simp only [] at h
      cases hvc : volume_contains bounds hull eb d0.dat.pos with
      | false =>
        rw [hvc] at h
        simp at h
      | true =>
        rw [hvc] at h
        simp only [Bool.true_eq_false, if_false] at h
        obtain ⟨e, hsome, hok⟩ := extension_length_sq_ok hds
        rw [hok] at h
        simp only [Except.ok.injEq, Option.some.injEq] at h
        subst h
        exact ⟨rfl, rfl, rfl, d0, rest, rfl, rfl, rfl, e, hsome, rfl⟩

/-- Witness for C3 on the concrete scenario; the extra final conjunct
records that the primary's direction genuinely differs from the located
neutrino's, so the copied direction is the primary's. -/
theorem cascade_fields_spec_witness :
    (exCascade.ptype = exNu2.dat.ptype ∧
     exCascade.shape = .Cascade ∧
     exCascade.dir = exPrimary.dat.dir ∧
     ∃ d0 rest, exNu2.daughters = d0 :: rest ∧
       exCascade.pos = d0.dat.pos ∧ exCascade.time = d0.dat.time ∧
       ∃ e, get_extension_from_vertex exNu2 d0.dat.pos false = some e ∧
         exCascade.length = edist d0.dat.pos e) ∧
    exCascade.dir ≠ exNu2.dat.dir :=
  ⟨cascade_fields_spec exScale (fun _ _ => true) exNu2 exPrimary
      (some fun _ => true) 200 exCascade exBuild,
    by norm_num [exCascade, exNu2, Particle.dat]⟩

/-- C7: `get_cascade_energy_deposited` is all-or-nothing: the full
EM-equivalent energy when the cascade's position is inside the volume,
exactly 0 otherwise. -/
theorem energy_deposited_all_or_nothing (emScale : ParticleType → ℚ → ℚ)
    (convex_hull : Vec3 → Bool) (cascade : PData) :
    (convex_hull cascade.pos = true →
      get_cascade_energy_deposited emScale convex_hull cascade =
        get_cascade_em_equivalent emScale cascade) ∧
    (convex_hull cascade.pos = false →
      get_cascade_energy_deposited emScale convex_hull cascade = 0) := by
  unfold get_cascade_energy_deposited
  constructor <;> intro h <;> simp [h]

/-- Witness for C7: both containment outcomes at a concrete cascade. -/
theorem energy_deposited_all_or_nothing_witness :
    get_cascade_energy_deposited exScale (fun _ => true) exEl.dat =
      get_cascade_em_equivalent exScale exEl.dat ∧
    get_cascade_energy_deposited exScale (fun _ => false) exEl.dat = 0 :=
  ⟨(energy_deposited_all_or_nothing exScale (fun _ => true) exEl.dat).1 rfl,
   (energy_deposited_all_or_nothing exScale (fun _ => false) exEl.dat).2 rfl⟩

/-- Modelled from the spec: the external shower-parameter model
(`I3SimConstants.ShowerParameters`, or the repository's fallback
`shower_parameters.py` — neither among the given source files).  Per the
spec it is a pluggable function `(type, energy) → scale_factor` whose
induced EM-equivalent energy is monotonic non-decreasing in energy for
fixed type; the exact parametrization is a physics constant table
outside the design's scope. -/
structure ShowerModel where
  emScale : ParticleType → ℚ → ℚ
  em_mono : ∀ t : ParticleType, Monotone fun e => e * emScale t e

/-- C8: `em_equivalent_energy(type, energy)` is the raw energy times the
shower-model scale factor at `(type, energy)`; it equals the raw energy
whenever that scale factor is 1, and for fixed type it is monotonic
non-decreasing in energy. -/
theorem em_equivalent_energy_spec (M : ShowerModel) (t : ParticleType)
    (e : ℚ) (s : ParticleShape) (loc : LocationType) (pos dir : Vec3)
    (tm : ℚ) (len : LengthVal) :
    get_cascade_em_equivalent M.emScale ⟨t, s, loc, pos, dir, tm, e, len⟩ =
      e * M.emScale t e ∧
    (M.emScale t e = 1 →
      get_cascade_em_equivalent M.emScale ⟨t, s, loc, pos, dir, tm, e, len⟩
        = e) ∧
    Monotone (fun e0 : ℚ =>
      get_cascade_em_equivalent M.emScale ⟨t, s, loc, pos, dir, tm, e0, len⟩) := by
  refine ⟨rfl, ?_, ?_⟩
  · intro h1
    unfold get_cascade_em_equivalent
    simp [h1]
  · exact M.em_mono t

/-- A concrete conforming shower model: scale factor 1 everywhere. -/
def exShower : ShowerModel :=
  ⟨fun _ _ => 1, fun _ => by
    simp only [mul_one]
    exact monotone_id⟩

/-- Witness for C8: at scale factor 1 the EM equivalent of a 3 GeV
electron cascade is its raw energy. -/
theorem em_equivalent_energy_spec_witness :
    get_cascade_em_equivalent exShower.emScale
      ⟨.EMinus, .Cascade, .InIce, ⟨0, 0, 0⟩, ⟨0, 0, 1⟩, 0, 3, .nonfinite⟩
      = 3 :=
  (em_equivalent_energy_spec exShower .EMinus 3 .Cascade .InIce ⟨0, 0, 0⟩
    ⟨0, 0, 1⟩ 0 .nonfinite).2.1 rfl

/-- C10: `get_interaction_extension_pos` asserts at least 2 daughters
while `get_interaction_extension_length` asserts only at least 1: the
position variant raises exactly below 2 daughters, the length variant
exactly below 1, and on a primary with exactly one daughter the position
variant fails while the length variant succeeds. -/
theorem extension_wrappers_preconditions (p : Particle) :
    (errored (get_interaction_extension_pos p) = true ↔
      p.daughters.length < 2) ∧
    (errored (get_interaction_extension_length_sq p) = true ↔
      p.daughters.length < 1) ∧
    (p.daughters.length = 1 →
      errored (get_interaction_extension_pos p) = true ∧
      ∃ q, get_interaction_extension_length_sq p = .ok q) := by
  match hds : p.daughters with
  | [] =>
    refine ⟨?_, ?_, ?_⟩
    · simp [get_interaction_extension_pos, hds, errored]
    · simp [get_interaction_extension_length_sq, hds, errored]
    · intro hlen
      simp at hlen
  | [d] =>
    obtain ⟨e, _, hok⟩ := extension_length_sq_ok hds
    refine ⟨?_, ?_, ?_⟩
    · simp [get_interaction_extension_pos, hds, errored]
    · rw [hok]
      simp [errored, hds]
    · intro _
      refine ⟨?_, ⟨_, hok⟩⟩
      simp [get_interaction_extension_pos, hds, errored]
  | d :: d' :: rest =>
    obtain ⟨e, _, hok⟩ := extension_length_sq_ok hds
    refine ⟨?_, ?_, ?_⟩
    · simp [get_interaction_extension_pos, hds, errored]
    · rw [hok]
      simp [errored, hds]
    · intro hlen
      simp at hlen

/-- A neutrino with exactly one daughter. -/
def exNu1 : Particle :=
  .mk ⟨.NuE, .Null, .InIce, ⟨0, 0, 0⟩, ⟨1, 0, 0⟩, 0, 6, .nonfinite⟩ [exD2]

/-- Witness for C10: with exactly one daughter the position variant
raises its assertion and the length variant succeeds. -/
theorem extension_wrappers_preconditions_witness :
    errored (get_interaction_extension_pos exNu1) = true ∧
    ∃ q, get_interaction_extension_length_sq exNu1 = .ok q :=
  (extension_wrappers_preconditions exNu1).2.2
    (by norm_num [exNu1, Particle.daughters])

end IC3
